import Mathlib

/-!
# Verification of the ledger-merge and upsert engine of `repair.py`

Shallow embedding of the core engine of `src/repair.py`:

* `norm`             — `repair.py:36-39` (`str(x).strip()`; the `x is None` branch
                        cannot fire on the string cells modelled here);
* `pd_to_datetime`   — model of `pandas.to_datetime(s, errors="coerce")` restricted to
                        the numeric `Y/M/D[ H:M[:S]]` shapes exercised by this store;
                        strings outside this shape (e.g. containing CJK words such as
                        "上午") coerce to `NaT`, modelled as `none`;
* `searchYmd`        — the `re.search` at `repair.py:51`, whose pattern is a
                        four-digit group, a separator (slash or hyphen), a 1-2 digit
                        group, a separator, and a 1-2 digit group;
* `to_ymd`           — `repair.py:44-55`;
* compaction         — `repair.py:298-301` and `305-308`
                        (`strip` key, `sort_values("_ts")`, `groupby(key).tail(1)`);
                        pandas places `NaT` last and keeps the original order of rows
                        whose sort keys compare equal (modelled by a stable insertion
                        sort; pandas' default kind does not guarantee stability for
                        equal *parsable* keys, but every theorem below that depends on
                        tie order only relies on ties among unparsable timestamps,
                        which pandas does keep in original order via `nargsort`);
* the left merge     — `repair.py:311-316`;
* `read_sheet_as_df` — `repair.py:123-143`;
* `save_repair`      — `repair.py:165-201`.
-/

namespace Repair

/-- Python `str.strip()` on a list of characters: drop leading and trailing
whitespace. -/
def stripChars (l : List Char) : List Char :=
  ((l.dropWhile Char.isWhitespace).reverse.dropWhile Char.isWhitespace).reverse

/-- `norm` (`repair.py:36-39`): `str(x).strip()`. All cells modelled here are
already strings, so the `None` branch is dead. -/
def norm (s : String) : String :=
  String.mk (stripChars s.data)

/-- One digit character. -/
def digitChar (n : Nat) : Char :=
  Char.ofNat (48 + n)

/-- Numeric value of a digit character. -/
def digitVal (c : Char) : Nat :=
  c.toNat - 48

/-- A parsed calendar timestamp (model of a pandas `Timestamp`). -/
structure PDate where
  y : Nat
  mo : Nat
  da : Nat
  hh : Nat
  mi : Nat
  ss : Nat
deriving DecidableEq

/-- Read exactly four digit characters. -/
def readY4 : List Char → Option (Nat × List Char)
  | c1 :: c2 :: c3 :: c4 :: rest =>
    if c1.isDigit && c2.isDigit && c3.isDigit && c4.isDigit then
      some ((((digitVal c1 * 10 + digitVal c2) * 10 + digitVal c3) * 10 + digitVal c4), rest)
    else none
  | _ => none

/-- Read one or two digit characters, greedily. -/
def readD12 : List Char → Option (Nat × List Char)
  | c1 :: c2 :: rest =>
    if c1.isDigit then
      if c2.isDigit then some (digitVal c1 * 10 + digitVal c2, rest)
      else some (digitVal c1, c2 :: rest)
    else none
  | [c1] => if c1.isDigit then some (digitVal c1, []) else none
  | [] => none

/-- A date separator, `/` or `-`. -/
def isSep (c : Char) : Bool :=
  c == '/' || c == '-'

/-- Read `Y/M/D` (or `Y-M-D`) with a four-digit year and 1-2 digit month and day,
both separators equal. -/
def readDateHead (l : List Char) : Option (Nat × Nat × Nat × List Char) :=
  match readY4 l with
  | none => none
  | some (y, rest) =>
    match rest with
    | [] => none
    | s1 :: rest1 =>
      if isSep s1 then
        match readD12 rest1 with
        | none => none
        | some (mo, rest2) =>
          match rest2 with
          | [] => none
          | s2 :: rest3 =>
            if s2 == s1 then
              match readD12 rest3 with
              | none => none
              | some (da, rest4) => some (y, mo, da, rest4)
            else none
      else none

/-- Read an optional ` H:M[:S]` tail, requiring the end of the string after it. -/
def readTimeTail : List Char → Option (Nat × Nat × Nat)
  | [] => some (0, 0, 0)
  | ' ' :: rest =>
    match readD12 rest with
    | none => none
    | some (hh, rest1) =>
      match rest1 with
      | ':' :: rest2 =>
        match readD12 rest2 with
        | none => none
        | some (mi, rest3) =>
          match rest3 with
          | [] => some (hh, mi, 0)
          | ':' :: rest4 =>
            match readD12 rest4 with
            | some (ss, []) => some (hh, mi, ss)
            | _ => none
          | _ => none
      | _ => none
  | _ => none

/-- Model of `pandas.to_datetime(s, errors="coerce")` (`repair.py:48,300,307`) on the
numeric date shapes this store produces: surrounding whitespace is tolerated, the
whole string must be a `Y/M/D` or `Y-M-D` date (four-digit year, 1-2 digit month in
`1..12`, 1-2 digit day in `1..31`) optionally followed by a ` H:M[:S]` time; any
other string (in particular one containing locale words such as `上午`) yields `NaT`,
i.e. `none`. -/
def pd_to_datetime (s : String) : Option PDate :=
  match readDateHead (stripChars s.data) with
  | none => none
  | some (y, mo, da, rest) =>
    if 1 ≤ mo && mo ≤ 12 && 1 ≤ da && da ≤ 31 then
      match readTimeTail rest with
      | none => none
      | some (hh, mi, ss) => some ⟨y, mo, da, hh, mi, ss⟩
    else none

/-- Attempt of the regex of `repair.py:51` — a four-digit year group, a separator
(slash or hyphen), a 1-2 digit month group, a separator, and a 1-2 digit day group —
at the head of the input; returns the year group verbatim (as its four characters) and
the month and day groups as numbers.  The regex engine's backtracking from a
two-digit to a one-digit month group is reproduced by `readD12`'s greedy choice:
when the greedy two-digit month is followed by a non-separator, the one-digit
alternative would have to find a separator at the second digit, which is impossible,
so no extra backtracking case is needed. -/
def readC4 : List Char → Option (List Char × List Char)
  | c1 :: c2 :: c3 :: c4 :: rest =>
    if c1.isDigit && c2.isDigit && c3.isDigit && c4.isDigit then
      some ([c1, c2, c3, c4], rest)
    else none
  | _ => none

/-- The regex's 1-2 digit month group followed by a separator: the greedy
two-digit group is tried first; when it is not followed by a separator the engine
backtracks to the one-digit group, whose following character must then be a
separator (a digit there can never succeed, so no further backtracking arises). -/
def readMonthSep : List Char → Option (Nat × List Char)
  | m1 :: m2 :: s2 :: rest2 =>
    if m1.isDigit && m2.isDigit && isSep s2 then
      some (digitVal m1 * 10 + digitVal m2, rest2)
    else if m1.isDigit && isSep m2 then some (digitVal m1, s2 :: rest2)
    else none
  | [m1, m2] =>
    if m1.isDigit && isSep m2 then some (digitVal m1, []) else none
  | _ => none

def matchYmdAt (l : List Char) : Option (List Char × Nat × Nat) :=
  match readC4 l with
  | none => none
  | some (y, rest) =>
    match rest with
    | [] => none
    | s1 :: rest1 =>
      if isSep s1 then
        match readMonthSep rest1 with
        | none => none
        | some (mo, rest2) =>
          match readD12 rest2 with
          | none => none
          | some (da, _) => some (y, mo, da)
      else none

/-- `re.search` of the regex above: try every start position left to right. -/
def searchYmd : List Char → Option (List Char × Nat × Nat)
  | [] => none
  | c :: rest =>
    match matchYmdAt (c :: rest) with
    | some r => some r
    | none => searchYmd rest

/-- Two-digit zero-padded rendering, Python `f"{n:02d}"` for `n ≤ 99`. -/
def pad2 (n : Nat) : List Char :=
  [digitChar (n / 10 % 10), digitChar (n % 10)]

/-- Four-digit zero-padded rendering, `strftime("%Y")` for `y ≤ 9999`. -/
def pad4 (n : Nat) : List Char :=
  [digitChar (n / 1000 % 10), digitChar (n / 100 % 10),
   digitChar (n / 10 % 10), digitChar (n % 10)]

/-- `d.strftime("%Y-%m-%d")` (`repair.py:50`). -/
def strftimeYmd (d : PDate) : String :=
  String.mk (pad4 d.y ++ '-' :: pad2 d.mo ++ '-' :: pad2 d.da)

/-- `to_ymd` (`repair.py:44-55`): strip, try generic parsing, then the regex
fallback (year group verbatim, month and day zero-padded), else empty. -/
def to_ymd (ts : String) : String :=
  let s := norm ts
  if s = "" then ""
  else
    match pd_to_datetime s with
    | some d => strftimeYmd d
    | none =>
      match searchYmd s.data with
      | some (y, mo, da) => String.mk (y ++ '-' :: pad2 mo ++ '-' :: pad2 da)
      | none => ""

/-- The string has the shape `\d{4}-\d{2}-\d{2}`. -/
def isYmd (s : String) : Bool :=
  match s.data with
  | [a, b, c, d, e, f, g, h, i, j] =>
    a.isDigit && b.isDigit && c.isDigit && d.isDigit && e == '-' &&
      f.isDigit && g.isDigit && h == '-' && i.isDigit && j.isDigit
  | _ => false

/-- Sort ordinal of a `NaT`-able timestamp cell: parsable cells are ordered
chronologically, unparsable cells (`NaT`) after all of them, matching
`sort_values` with `na_position="last"` (`repair.py:301,308`). -/
def tsTop : Nat := 1000000000000000

/-- Chronological ordinal of a parsed timestamp. -/
def pdOrd (d : PDate) : Nat :=
  ((((d.y * 100 + d.mo) * 100 + d.da) * 100 + d.hh) * 100 + d.mi) * 100 + d.ss

/-- Sort key of a raw timestamp cell. -/
def tsOrd (s : String) : Nat :=
  match pd_to_datetime s with
  | some d => pdOrd d
  | none => tsTop

/-! ## Key compaction (`repair.py:298-301`, `305-308`)

`df.sort_values("_ts").groupby(key).tail(1)`: sort by the parsed timestamp with
`NaT` last, then keep, for each key, its last row; `groupby(...).tail(1)` returns
the surviving rows in frame order. -/

/-- Keep, for each key, only its last occurrence (in order of those survivors):
the effect of `groupby(key, as_index=False).tail(1)` on a data frame.  A pandas
`groupby` on a string column keeps every string key, the empty string included. -/
def keepLast {α : Type} (key : α → String) : List α → List α
  | [] => []
  | r :: rs =>
    if rs.any (fun x => key x == key r) then keepLast key rs
    else r :: keepLast key rs

/-- Ascending order on the parsed-timestamp sort key (`sort_values("_ts")`). -/
def tsLeBy {α : Type} (f : α → String) (a b : α) : Prop :=
  tsOrd (f a) ≤ tsOrd (f b)

instance {α : Type} (f : α → String) : DecidableRel (tsLeBy f) :=
  fun _ _ => Nat.decLe _ _

instance {α : Type} (f : α → String) : IsTotal α (tsLeBy f) :=
  ⟨fun a b => Nat.le_total (tsOrd (f a)) (tsOrd (f b))⟩

instance {α : Type} (f : α → String) : IsTrans α (tsLeBy f) :=
  ⟨fun _ _ _ hab hbc => Nat.le_trans hab hbc⟩

/-- A generic log row for the compaction step: the key column (`案件編號`), the
timestamp column (`時間戳記`), and the remaining cells. -/
structure Row where
  key : String
  ts : String
  fields : List String
deriving DecidableEq

/-- The compaction of `repair.py:298-301` / `305-308` on a generic log:
trim the key column, sort by the parsed timestamp (`NaT` last), and keep the last
row of each key group. -/
def compactRows (rows : List Row) : List Row :=
  keepLast (fun r => r.key)
    (List.insertionSort (tsLeBy (fun r : Row => r.ts))
      (rows.map (fun r => { r with key := norm r.key })))

/-- Look up the compacted record of a key (the mapping view of the compacted
frame; keys are unique after `tail(1)`). -/
def lookupKey (rows : List Row) (k : String) : Option Row :=
  rows.find? (fun r => r.key == k)

/-! ## The merged view (`repair.py:294-316`) -/

/-- A row of the intake log `報修資料` in its projected column order
(`repair.py:150-153`). -/
structure CaseRec where
  ts : String
  location : String
  equipment : String
  descr : String
  media : String
  caseId : String
deriving DecidableEq

/-- A row of the repair log `維修紀錄` (`repair.py:155-158`). -/
structure EventRec where
  ts : String
  caseId : String
  status : String
  note : String
deriving DecidableEq

/-- A row of `df_all` (`repair.py:311-316`): the case columns (with `時間戳記`
renamed to `報修時間` and the derived `報修日期`) merged with the repair columns
(`時間戳記` renamed to `維修更新時間`). -/
structure Merged where
  reportTime : String
  location : String
  equipment : String
  descr : String
  media : String
  caseId : String
  reportDate : String
  updTime : String
  status : String
  note : String
deriving DecidableEq

/-- `repair.py:298-303`: trim `案件編號`, sort by the parsed `時間戳記`, keep the
last row per key.  (`報修日期` and the rename happen at the join, below.) -/
def compactCase (l : List CaseRec) : List CaseRec :=
  keepLast (fun r => r.caseId)
    (List.insertionSort (tsLeBy (fun r : CaseRec => r.ts))
      (l.map (fun r => { r with caseId := norm r.caseId })))

/-- `repair.py:305-309`: the same compaction on the repair log. -/
def compactEvent (l : List EventRec) : List EventRec :=
  keepLast (fun r => r.caseId)
    (List.insertionSort (tsLeBy (fun r : EventRec => r.ts))
      (l.map (fun r => { r with caseId := norm r.caseId })))

/-- One left-merge group (`merge(..., on="案件編號", how="left").fillna("")`,
`repair.py:311-315`): all matching repair rows, or a single row with the repair
columns filled with the empty string when none matches. -/
def leftMergeRow (w : List EventRec) (c : CaseRec) : List Merged :=
  match w.filter (fun e => e.caseId == c.caseId) with
  | [] => [⟨c.ts, c.location, c.equipment, c.descr, c.media, c.caseId,
            to_ymd c.ts, "", "", ""⟩]
  | ms => ms.map (fun e => ⟨c.ts, c.location, c.equipment, c.descr, c.media,
            c.caseId, to_ymd c.ts, e.ts, e.status, e.note⟩)

/-- `df_all` before the final sort (`repair.py:298-315`). -/
def joinedView (report : List CaseRec) (repairs : List EventRec) : List Merged :=
  ((compactCase report).map (leftMergeRow (compactEvent repairs))).flatten

/-- Lexicographic order on character lists by code point: the comparison Python
(and hence pandas) applies to string cells. -/
def charListLe : List Char → List Char → Bool
  | [], _ => true
  | _ :: _, [] => false
  | a :: as, b :: bs => if a < b then true else if b < a then false else charListLe as bs

/-- Python string comparison. -/
def strLe (a b : String) : Prop :=
  charListLe a.data b.data = true

instance : DecidableRel strLe :=
  fun _ _ => instDecidableEqBool _ _

/-- Descending order on `報修日期` (`sort_values("報修日期", ascending=False)`,
`repair.py:316`): the dates are `YYYY-MM-DD` strings or the empty string, compared
as strings, so the empty string is a bottom element and sorts last. -/
def dateDesc (a b : Merged) : Prop :=
  strLe b.reportDate a.reportDate

instance : DecidableRel dateDesc :=
  fun _ _ => instDecidableEqBool _ _

theorem charListLe_total (a b : List Char) :
    charListLe a b = true ∨ charListLe b a = true := by
  induction a generalizing b with
  | nil => exact Or.inl rfl
  | cons x xs ih =>
    cases b with
    | nil => exact Or.inr rfl
    | cons y ys =>
      by_cases hxy : x < y
      · exact Or.inl (by simp [charListLe, hxy])
      · by_cases hyx : y < x
        · exact Or.inr (by simp [charListLe, hyx])
        · rcases ih ys with h | h
          · exact Or.inl (by simp [charListLe, hxy, hyx, h])
          · exact Or.inr (by simp [charListLe, hxy, hyx, h])

theorem charListLe_trans {a b c : List Char} (hab : charListLe a b = true)
    (hbc : charListLe b c = true) : charListLe a c = true := by
  induction a generalizing b c with
  | nil => rfl
  | cons x xs ih =>
    cases b with
    | nil => simp [charListLe] at hab
    | cons y ys =>
      cases c with
      | nil => simp [charListLe] at hbc
      | cons z zs =>
        simp only [charListLe] at hab hbc ⊢
        by_cases hxy : x < y <;> by_cases hyz : y < z
        · simp [lt_trans hxy hyz]
        · have hzy : ¬ z < y := by
            intro h
            simp [hyz, h] at hbc
          have hyz' : y = z := le_antisymm (not_lt.mp hzy) (not_lt.mp hyz)
          simp [hyz' ▸ hxy]
        · have hyx : ¬ y < x := by
            intro h
            simp [hxy, h] at hab
          have hxy' : x = y := le_antisymm (not_lt.mp hyx) (not_lt.mp hxy)
          simp [hxy' ▸ hyz]
        · have hyx : ¬ y < x := by
            intro h
            simp [hxy, h] at hab
          have hzy : ¬ z < y := by
            intro h
            simp [hyz, h] at hbc
          have e1 : x = y := le_antisymm (not_lt.mp hyx) (not_lt.mp hxy)
          have e2 : y = z := le_antisymm (not_lt.mp hzy) (not_lt.mp hyz)
          subst e1; subst e2
          simp only [lt_irrefl, if_neg, if_false]
          simp [hxy] at hab hbc
          exact ih hab hbc

instance : IsTotal Merged dateDesc :=
  ⟨fun a b => charListLe_total b.reportDate.data a.reportDate.data⟩

instance : IsTrans Merged dateDesc :=
  ⟨fun _ _ _ hab hbc => charListLe_trans hbc hab⟩

/-- The merged view `df_all` (`repair.py:298-316`). -/
def mergeView (report : List CaseRec) (repairs : List EventRec) : List Merged :=
  List.insertionSort dateDesc (joinedView report repairs)

/-! ## The schema projector `read_sheet_as_df` (`repair.py:123-143`) -/

/-- The first header index whose trimmed cell equals `name`: the common column
lookup of the engine.  It is `col(name)` of `repair.py:172-176` verbatim, and it is
also what a lookup in the first-occurrence-wins dict `idx_map` of
`repair.py:131-135` returns for a nonblank name (a nonblank name is inserted when
first seen, and the skipped entries — blanks and later duplicates — can never be
its first occurrence). -/
def colIndex (header : List String) (name : String) : Option Nat :=
  match header with
  | [] => none
  | h :: rest =>
    if norm h == name then some 0 else (colIndex rest name).map (· + 1)

/-- `idx_map.get(h)` (`repair.py:131-135,140`): first-occurrence-wins over trimmed
nonblank header names; the blank name is never a key of the dict. -/
def lookupIdx (header : List String) (name : String) : Option Nat :=
  if name = "" then none else colIndex header name

/-- A projected table: its column names and its data rows (each row aligned with
the columns). -/
structure DF where
  cols : List String
  rows : List (List String)
deriving DecidableEq

/-- `read_sheet_as_df` (`repair.py:123-143`): empty input gives an empty frame with
exactly the expected columns; otherwise the first row is the header and each data
row is projected cell `r[i]` when the expected name maps to column `i < len(r)`,
else the empty string. -/
def read_sheet_as_df (values : List (List String)) (headers : List String) : DF :=
  match values with
  | [] => ⟨headers, []⟩
  | header :: rows =>
    ⟨headers,
     rows.map (fun r =>
       headers.map (fun h =>
         match lookupIdx header h with
         | some i => (r.get? i).getD ""
         | none => ""))⟩

/-! ## The upsert writer `save_repair` (`repair.py:165-201`)

The worksheet is a grid; `get_all_values()` is its list of rows, `update_cell` and
`append_row` write back.  `save_repair` is modelled as a pure function from the
current grid to `Except`: an exception leaves the grid unwritten. -/

/-- `save_repair` failures: the empty-worksheet `RuntimeError` of `repair.py:169`
and the missing-required-column `RuntimeError` of `repair.py:180` (the spec's
`SchemaError`). -/
inductive RepairError
  | emptySheet
  | schemaError
deriving DecidableEq

instance {ε α : Type} [DecidableEq ε] [DecidableEq α] : DecidableEq (Except ε α) :=
  fun a b =>
    match a, b with
    | .error x, .error y =>
      if h : x = y then isTrue (by rw [h]) else isFalse (fun hc => h (by injection hc))
    | .ok x, .ok y =>
      if h : x = y then isTrue (by rw [h]) else isFalse (fun hc => h (by injection hc))
    | .error _, .ok _ => isFalse (fun hc => Except.noConfusion hc)
    | .ok _, .error _ => isFalse (fun hc => Except.noConfusion hc)

/-- The row-scan condition of `repair.py:188`:
`c_case < len(row) and norm(row[c_case]) == case_id`. -/
def rowMatches (cCase : Nat) (case_id : String) (row : List String) : Bool :=
  match row.get? cCase with
  | some cell => norm cell == case_id
  | none => false

/-- The scan of `repair.py:185-189`: the index (into the data rows) of the last
row matching the key, scanning all rows top to bottom. -/
def lastMatchIdx (cCase : Nat) (case_id : String) : List (List String) → Option Nat
  | [] => none
  | r :: rs =>
    match lastMatchIdx cCase case_id rs with
    | some j => some (j + 1)
    | none => if rowMatches cCase case_id r then some 0 else none

/-- `ws.update_cell` on one row of the grid: pad the stored row with empty cells
up to the target column if needed, then write the cell. -/
def setCell (row : List String) (c : Nat) (v : String) : List String :=
  (row ++ List.replicate (c + 1 - row.length) "").set c v

/-- Grid semantics of reading a cell: absent trailing cells are empty. -/
def getCell (row : List String) (c : Nat) : String :=
  (row.get? c).getD ""

/-- The three in-place writes of `repair.py:192-194` on the matched row. -/
def updateMatchedRow (cTs cStat cNote : Nat) (now status note : String)
    (row : List String) : List String :=
  setCell (setCell (setCell row cTs now) cStat status) cNote note

/-- The fresh full-width row of `repair.py:196-200`. -/
def freshRow (headerLen : Nat) (cTs cCase cStat cNote : Nat)
    (now case_id status note : String) : List String :=
  ((((List.replicate headerLen "").set cTs now).set cCase case_id).set
      cStat status).set cNote note

/-- `save_repair` (`repair.py:165-201`): fail on an empty worksheet; locate the
four required columns by trimmed-name match and fail with the schema error if any
is absent; find the last data row whose trimmed `案件編號` cell equals the key
(untrimmed) and overwrite its timestamp, status and note cells in place; otherwise
append one full-width row.  `now` stands for `now_ts_full()`. -/
def save_repair (now case_id status note : String) (values : List (List String)) :
    Except RepairError (List (List String)) :=
  match values with
  | [] => .error .emptySheet
  | header :: dataRows =>
    match colIndex header "時間戳記", colIndex header "案件編號",
        colIndex header "處理進度", colIndex header "維修說明" with
    | some cTs, some cCase, some cStat, some cNote =>
      match lastMatchIdx cCase case_id dataRows with
      | some i =>
        .ok (header :: dataRows.modify (updateMatchedRow cTs cStat cNote now status note) i)
      | none =>
        .ok (header :: (dataRows ++ [freshRow header.length cTs cCase cStat cNote
          now case_id status note]))
    | _, _, _, _ => .error .schemaError

/-! ## Supporting lemmas -/

theorem dropWhile_dropWhile {α : Type} (p : α → Bool) (l : List α) :
    (l.dropWhile p).dropWhile p = l.dropWhile p := by
  induction l with
  | nil => rfl
  | cons a t ih =>
    by_cases h : p a
    · simp [List.dropWhile_cons, h, ih]
    · simp [List.dropWhile_cons, h]

theorem dropWhile_eq_self_of_head {α : Type} {p : α → Bool} {l : List α} {x : α}
    (hx : l.head? = some x) (hp : p x = false) : l.dropWhile p = l := by
  cases l with
  | nil => rfl
  | cons a t =>
    simp only [List.head?_cons, Option.some.injEq] at hx
    subst hx
    simp [List.dropWhile_cons, hp]

theorem getLast?_dropWhile {α : Type} (p : α → Bool) (l : List α)
    (h : l.dropWhile p ≠ []) : (l.dropWhile p).getLast? = l.getLast? := by
  conv_rhs => rw [← List.takeWhile_append_dropWhile (p := p) (l := l)]
  rw [List.getLast?_append, Option.or_of_isSome (List.getLast?_isSome.mpr h)]

theorem stripChars_idem (l : List Char) : stripChars (stripChars l) = stripChars l := by
  set p := Char.isWhitespace with hp
  set u := l.dropWhile p with hu
  set v := u.reverse.dropWhile p with hv
  have hstrip : stripChars l = v.reverse := rfl
  by_cases hvnil : v = []
  · rw [hstrip, hvnil]
    rfl
  · have hdrop1 : v.reverse.dropWhile p = v.reverse := by
      rcases hhead : v.reverse.head? with _ | x
      · rw [List.head?_eq_none_iff] at hhead
        rw [hhead]
        rfl
      · apply dropWhile_eq_self_of_head hhead
        rw [List.head?_reverse] at hhead
        have := getLast?_dropWhile p u.reverse (hv ▸ hvnil)
        rw [← hv, hhead, List.getLast?_reverse] at this
        have hunil : u ≠ [] := by
          intro hh
          apply hvnil
          rw [hv, hh]
          rfl
        have hhu := List.head?_dropWhile_not p l
        rw [← hu] at hhu
        rcases hu2 : u.head? with _ | y
        · rw [List.head?_eq_none_iff] at hu2
          exact absurd hu2 hunil
        · rw [hu2] at hhu
          have hxy : some x = some y := by rw [this]; exact hu2
          cases hxy
          exact hhu
    rw [hstrip]
    show ((v.reverse.dropWhile p).reverse.dropWhile p).reverse = v.reverse
    rw [hdrop1, List.reverse_reverse, hv, dropWhile_dropWhile]

theorem norm_idem (s : String) : norm (norm s) = norm s :=
  congrArg String.mk (stripChars_idem s.data)

theorem charListLe_refl (l : List Char) : charListLe l l = true := by
  induction l with
  | nil => rfl
  | cons a t ih => simp [charListLe, lt_irrefl, ih]

/-! ### `keepLast` (the effect of `groupby(key).tail(1)`) -/

theorem keepLast_sublist {α : Type} (key : α → String) :
    ∀ l : List α, (keepLast key l).Sublist l := by
  intro l
  induction l with
  | nil => exact List.Sublist.refl []
  | cons r rs ih =>
    by_cases h : rs.any (fun x => key x == key r)
    · simp only [keepLast, h, if_true]
      exact ih.cons r
    · simp only [keepLast, h, if_false]
      exact ih.cons₂ r

theorem getLast?_cons_of_ne_nil {α : Type} {a : α} {l : List α} (h : l ≠ []) :
    (a :: l).getLast? = l.getLast? := by
  cases l with
  | nil => exact absurd rfl h
  | cons b t => exact List.getLast?_cons_cons

theorem keepLast_cons_pos {α : Type} {key : α → String} {r : α} {rs : List α}
    (h : (rs.any (fun x => key x == key r)) = true) :
    keepLast key (r :: rs) = keepLast key rs := by
  simp [keepLast, h]

theorem keepLast_cons_neg {α : Type} {key : α → String} {r : α} {rs : List α}
    (h : ¬ (rs.any (fun x => key x == key r)) = true) :
    keepLast key (r :: rs) = r :: keepLast key rs := by
  simp [keepLast, h]

theorem find?_keepLast {α : Type} (key : α → String) (k : String) :
    ∀ l : List α, (keepLast key l).find? (fun a => key a == k) =
      (l.filter (fun a => key a == k)).getLast? := by
  intro l
  induction l with
  | nil => rfl
  | cons r rs ih =>
    by_cases hany : (rs.any (fun x => key x == key r)) = true
    · rw [keepLast_cons_pos hany, List.filter_cons]
      by_cases hk : key r = k
      · have hkb : (key r == k) = true := beq_iff_eq.mpr hk
        rw [hkb, if_pos rfl]
        have hfne : rs.filter (fun a => key a == k) ≠ [] := by
          rcases List.any_eq_true.mp hany with ⟨x, hx, hxr⟩
          intro hnil
          have hxk : (key x == k) = true := beq_iff_eq.mpr ((beq_iff_eq.mp hxr).trans hk)
          exact (List.filter_eq_nil_iff.mp hnil x hx) hxk
        rw [getLast?_cons_of_ne_nil hfne, ih]
      · have hkb : (key r == k) = false := by
          rw [Bool.eq_false_iff]
          intro hc
          exact hk (beq_iff_eq.mp hc)
        rw [hkb, if_neg (by simp), ih]
    · rw [keepLast_cons_neg hany, List.filter_cons]
      by_cases hk : key r = k
      · have hkb : (key r == k) = true := beq_iff_eq.mpr hk
        rw [hkb, if_pos rfl,
          @List.find?_cons_of_pos _ (fun a => key a == k) r (keepLast key rs) hkb]
        have hfnil : rs.filter (fun a => key a == k) = [] := by
          rw [List.filter_eq_nil_iff]
          intro x hx hxk
          apply List.any_eq_true.not.mp hany
          exact ⟨x, hx, beq_iff_eq.mpr ((beq_iff_eq.mp hxk).trans hk.symm)⟩
        rw [hfnil, List.getLast?_singleton]
      · have hkb : (key r == k) = false := by
          rw [Bool.eq_false_iff]
          intro hc
          exact hk (beq_iff_eq.mp hc)
        rw [hkb, if_neg (by simp),
          @List.find?_cons_of_neg _ (fun a => key a == k) r (keepLast key rs)
            (by intro hc; exact absurd (beq_iff_eq.mp hc) hk), ih]

theorem keys_nodup_keepLast {α : Type} (key : α → String) :
    ∀ l : List α, ((keepLast key l).map key).Nodup := by
  intro l
  induction l with
  | nil => exact List.nodup_nil
  | cons r rs ih =>
    by_cases h : (rs.any (fun x => key x == key r)) = true
    · rw [keepLast_cons_pos h]
      exact ih
    · rw [keepLast_cons_neg h, List.map_cons, List.nodup_cons]
      refine ⟨?_, ih⟩
      intro hmem
      rcases List.mem_map.mp hmem with ⟨a, ha, hak⟩
      have ha' : a ∈ rs := ((keepLast_sublist key rs).subset) ha
      exact (List.any_eq_true.not.mp h) ⟨a, ha', beq_iff_eq.mpr hak⟩

theorem keepLast_eq_self {α : Type} (key : α → String) :
    ∀ l : List α, (l.map key).Nodup → keepLast key l = l := by
  intro l
  induction l with
  | nil => intro _; rfl
  | cons r rs ih =>
    intro hnd
    rw [List.map_cons, List.nodup_cons] at hnd
    have h : ¬ (rs.any (fun x => key x == key r)) = true := by
      intro hany
      rcases List.any_eq_true.mp hany with ⟨x, hx, hxr⟩
      exact hnd.1 (List.mem_map.mpr ⟨x, hx, beq_iff_eq.mp hxr⟩)
    rw [keepLast_cons_neg h, ih hnd.2]

theorem mem_keys_keepLast {α : Type} (key : α → String) (k : String) (l : List α) :
    (∃ a ∈ keepLast key l, key a = k) ↔ ∃ a ∈ l, key a = k := by
  constructor
  · rintro ⟨a, ha, hk⟩
    exact ⟨a, (keepLast_sublist key l).subset ha, hk⟩
  · intro hex
    induction l with
    | nil => simp at hex
    | cons r rs ih =>
      by_cases h : (rs.any (fun x => key x == key r)) = true
      · rw [keepLast_cons_pos h]
        rcases hex with ⟨a, ha, hk⟩
        rcases List.mem_cons.mp ha with rfl | ha'
        · rcases List.any_eq_true.mp h with ⟨x, hx, hxr⟩
          exact ih ⟨x, hx, by rw [beq_iff_eq.mp hxr, hk]⟩
        · exact ih ⟨a, ha', hk⟩
      · rw [keepLast_cons_neg h]
        rcases hex with ⟨a, ha, hk⟩
        rcases List.mem_cons.mp ha with rfl | ha'
        · exact ⟨a, List.mem_cons_self a _, hk⟩
        · rcases ih ⟨a, ha', hk⟩ with ⟨b, hb, hbk⟩
          exact ⟨b, List.mem_cons_of_mem r hb, hbk⟩

theorem map_id_of_mem {α : Type} {l : List α} {f : α → α} (h : ∀ a ∈ l, f a = a) :
    l.map f = l := by
  induction l with
  | nil => rfl
  | cons a t ih =>
    rw [List.map_cons, h a (List.mem_cons_self a t),
      ih (fun b hb => h b (List.mem_cons_of_mem a hb))]

/-! ### Stability of the modelled sort -/

theorem filter_orderedInsert {α : Type} (le : α → α → Prop) [DecidableRel le]
    (p : α → Bool) (x : α) (l : List α)
    (h : p x = true → ∀ a ∈ l, p a = true → le x a) :
    (List.orderedInsert le x l).filter p =
      if p x then x :: l.filter p else l.filter p := by
  rw [List.orderedInsert_eq_take_drop, List.filter_append, List.filter_cons]
  by_cases hp : p x
  · have htake : (l.takeWhile fun b => decide ¬le x b).filter p = [] := by
      rw [List.filter_eq_nil_iff]
      intro a ha hpa
      have hle := h hp a ((List.takeWhile_sublist _).subset ha) hpa
      have := List.mem_takeWhile_imp ha
      exact (of_decide_eq_true this) hle
    conv_rhs => rw [← List.takeWhile_append_dropWhile (p := fun b => decide ¬le x b) (l := l)]
    rw [List.filter_append, htake, hp]
    simp
  · have hp' : p x = false := Bool.eq_false_iff.mpr hp
    conv_rhs => rw [← List.takeWhile_append_dropWhile (p := fun b => decide ¬le x b) (l := l)]
    rw [List.filter_append, hp']
    simp

theorem filter_insertionSort {α : Type} (le : α → α → Prop) [DecidableRel le]
    (p : α → Bool) (l : List α)
    (h : ∀ x ∈ l, ∀ a ∈ l, p x = true → p a = true → le x a) :
    (List.insertionSort le l).filter p = l.filter p := by
  induction l with
  | nil => rfl
  | cons x xs ih =>
    have hx : ∀ a ∈ List.insertionSort le xs, p x = true → p a = true → le x a := by
      intro a ha hpx hpa
      exact h x (List.mem_cons_self x xs) a
        (List.mem_cons_of_mem x ((List.mem_insertionSort le).mp ha)) hpx hpa
    have ih' := ih (fun y hy a ha hpy hpa =>
      h y (List.mem_cons_of_mem x hy) a (List.mem_cons_of_mem x ha) hpy hpa)
    simp only [List.insertionSort]
    rw [filter_orderedInsert le p x (List.insertionSort le xs)
      (fun hpx a ha hpa => hx a ha hpx hpa), ih', List.filter_cons]

/-! ## Claims about the Key Compactor (C1, C6, C8) -/

/-- C1, counterexample.  The claim states that within a key group the last
*physical* row in append order is selected, "chosen without parsing any embedded
timestamp".  The code (`repair.py:300-301`) sorts by the parsed timestamp before
`tail(1)`: for key `"A"` with rows `ts="2025-01-02", status x` then
`ts="2025-01-01", status y` (append order), the compacted record is the *first*
physical row (the larger timestamp), not the last one, so the record selected is
the `x` row, not the `y` row the claim requires. -/
theorem compact_prefers_parsed_timestamp_over_append_order :
    lookupKey (compactRows [⟨"A", "2025-01-02", ["x"]⟩, ⟨"A", "2025-01-01", ["y"]⟩]) "A" =
      some ⟨"A", "2025-01-02", ["x"]⟩ ∧
    (⟨"A", "2025-01-02", ["x"]⟩ : Row) ≠ ⟨"A", "2025-01-01", ["y"]⟩ := by
  decide

/-- C1, amended.  Within a key group the representative is the last row of the
group after the stable sort by parsed timestamp (`NaT` last).  When every row of
the group has an unparsable (or blank) timestamp, the sort keeps the group's
append order, so the representative is the last physical row for that key —
deterministically, without any usable timestamp; in particular the claim's
two-row example (no parsable timestamps) yields the `status y` row. -/
theorem compact_selects_last_when_group_unparsable (rows : List Row) (k : String)
    (h : ∀ r ∈ rows, norm r.key = k → pd_to_datetime r.ts = none) :
    lookupKey (compactRows rows) k =
      ((rows.filter (fun r => norm r.key == k)).getLast?).map
        (fun r => { r with key := k }) := by
  unfold lookupKey compactRows
  rw [find?_keepLast]
  have hstab : (List.insertionSort (tsLeBy (fun r : Row => r.ts))
        (rows.map (fun r => { r with key := norm r.key }))).filter
      (fun a => a.key == k) =
      (rows.map (fun r => { r with key := norm r.key })).filter (fun a => a.key == k) := by
    apply filter_insertionSort
    intro x hx a ha hpx hpa
    rcases List.mem_map.mp hx with ⟨r0, hr0, rfl⟩
    rcases List.mem_map.mp ha with ⟨r1, hr1, rfl⟩
    have hx0 : pd_to_datetime r0.ts = none := h r0 hr0 (beq_iff_eq.mp hpx)
    have hx1 : pd_to_datetime r1.ts = none := h r1 hr1 (beq_iff_eq.mp hpa)
    show tsOrd r0.ts ≤ tsOrd r1.ts
    simp [tsOrd, hx0, hx1]
  rw [hstab, List.filter_map, List.getLast?_map]
  show Option.map (fun r : Row => { r with key := norm r.key })
      (rows.filter (fun r => norm r.key == k)).getLast? =
    Option.map (fun r : Row => { r with key := k })
      (rows.filter (fun r => norm r.key == k)).getLast?
  rcases hlast : (rows.filter (fun r => norm r.key == k)).getLast? with _ | r
  · rw [hlast]
    rfl
  · have hr : r ∈ rows.filter (fun r => norm r.key == k) := by
      rcases List.getLast?_eq_some_iff.mp hlast with ⟨ys, hys⟩
      rw [hys]
      exact List.mem_append.mpr (Or.inr (List.mem_cons_self r []))
    have hk : norm r.key = k := beq_iff_eq.mp (List.mem_filter.mp hr).2
    rw [hlast]
    show some ({ r with key := norm r.key } : Row) = some { r with key := k }
    rw [hk]

/-- C1, witness for the amended theorem: both timestamps of the `"A"` group are
unparsable, and compaction picks the last physical row (`status y`). -/
theorem compact_selects_last_when_group_unparsable_witness :
    (∀ r ∈ ([⟨"A", "n-a", ["x"]⟩, ⟨"A", "", ["y"]⟩] : List Row),
      norm r.key = "A" → pd_to_datetime r.ts = none) ∧
    lookupKey (compactRows [⟨"A", "n-a", ["x"]⟩, ⟨"A", "", ["y"]⟩]) "A" =
      some ⟨"A", "", ["y"]⟩ :=
  ⟨by decide,
   (compact_selects_last_when_group_unparsable
      [⟨"A", "n-a", ["x"]⟩, ⟨"A", "", ["y"]⟩] "A" (by decide)).trans (by decide)⟩

/-- C6, counterexample.  The claim states that rows whose key is blank after
trimming produce no entry in the compacted mapping and never appear in the merged
view.  A pandas `groupby` on a string column keeps the empty-string key: a
single-row log whose key cell is `"   "` compacts to an entry under key `""`, and
a Case-log row with a blank key produces a merged-view record with `case_id` `""`. -/
theorem blank_key_row_not_dropped :
    lookupKey (compactRows [⟨"   ", "t", ["x"]⟩]) "" = some ⟨"", "t", ["x"]⟩ ∧
    (mergeView [⟨"ts", "loc", "eqp", "de", "me", "   "⟩] []).map
      (fun m => m.caseId) = [""] := by
  decide

/-- C6, amended.  Blank keys are *not* dropped: the compacted mapping has an entry
for a key exactly when some input row trims to that key — the empty string
included. -/
theorem compact_keeps_exactly_trimmed_keys (rows : List Row) (k : String) :
    (lookupKey (compactRows rows) k).isSome = rows.any (fun r => norm r.key == k) := by
  rw [← Bool.coe_iff_coe]
  unfold lookupKey compactRows
  rw [List.find?_isSome, List.any_eq_true]
  constructor
  · rintro ⟨x, hx, hpx⟩
    have hx1 := (keepLast_sublist (fun r : Row => r.key) _).subset hx
    have hx2 := (List.mem_insertionSort _).mp hx1
    rcases List.mem_map.mp hx2 with ⟨r0, hr0, rfl⟩
    exact ⟨r0, hr0, hpx⟩
  · rintro ⟨r0, hr0, hk⟩
    have hmem : ∃ a ∈ rows.map (fun r => { r with key := norm r.key }),
        (fun r : Row => r.key) a = k :=
      ⟨{ r0 with key := norm r0.key }, List.mem_map.mpr ⟨r0, hr0, rfl⟩,
        beq_iff_eq.mp hk⟩
    have hmem2 : ∃ a ∈ List.insertionSort (tsLeBy (fun r : Row => r.ts))
        (rows.map (fun r => { r with key := norm r.key })),
        (fun r : Row => r.key) a = k := by
      rcases hmem with ⟨a, ha, hak⟩
      exact ⟨a, (List.mem_insertionSort _).mpr ha, hak⟩
    rcases (mem_keys_keepLast (fun r : Row => r.key) k _).mpr hmem2 with ⟨a, ha, hak⟩
    exact ⟨a, ha, beq_iff_eq.mpr hak⟩

/-- C8.  Compacting an already-compacted log yields the identical frame (hence the
identical mapping): keys are already trimmed, the frame is already sorted by
parsed timestamp, and every key group is a singleton. -/
theorem compact_idempotent (rows : List Row) :
    compactRows (compactRows rows) = compactRows rows := by
  have hkeys : ((compactRows rows).map (fun r => r.key)).Nodup :=
    keys_nodup_keepLast (fun r : Row => r.key) _
  have hmapstrip : (compactRows rows).map (fun r => { r with key := norm r.key }) =
      compactRows rows := by
    apply map_id_of_mem
    intro m hm
    have hm1 := (keepLast_sublist (fun r : Row => r.key) _).subset hm
    have hm2 := (List.mem_insertionSort _).mp hm1
    rcases List.mem_map.mp hm2 with ⟨r0, _, rfl⟩
    show ({ key := norm (norm r0.key), ts := r0.ts, fields := r0.fields } : Row) = _
    rw [norm_idem]
  have hsorted : List.Sorted (tsLeBy (fun r : Row => r.ts)) (compactRows rows) :=
    (List.sorted_insertionSort _ _).sublist (keepLast_sublist (fun r : Row => r.key) _)
  show keepLast (fun r : Row => r.key)
      (List.insertionSort (tsLeBy (fun r : Row => r.ts))
        ((compactRows rows).map (fun r => { r with key := norm r.key }))) = compactRows rows
  rw [hmapstrip, List.Sorted.insertionSort_eq hsorted,
    keepLast_eq_self (fun r : Row => r.key) _ hkeys]

/-! ## Claims about the Ledger Joiner (C2, C4) -/

theorem flatten_map_singleton {α β : Type} (f : α → β) (l : List α) :
    (l.map (fun a => [f a])).flatten = l.map f := by
  induction l with
  | nil => rfl
  | cons a t ih => simp [ih]

/-- With unique keys on the right (guaranteed by compaction), one left-merge group
contributes exactly one output row, carrying the left row's key. -/
theorem leftMergeRow_map_caseId (w : List EventRec) (c : CaseRec)
    (hw : (w.map (fun e => e.caseId)).Nodup) :
    (leftMergeRow w c).map (fun m : Merged => m.caseId) = [c.caseId] := by
  rcases hf : w.filter (fun e => e.caseId == c.caseId) with _ | ⟨e, es⟩
  · simp [leftMergeRow, hf]
  · rcases es with _ | ⟨e2, es2⟩
    · simp [leftMergeRow, hf]
    · exfalso
      have hsub : ((w.filter (fun e => e.caseId == c.caseId)).map
          (fun e => e.caseId)).Sublist (w.map (fun e => e.caseId)) :=
        (List.filter_sublist w).map (fun e => e.caseId)
      have hnd := List.Nodup.sublist hsub hw
      rw [hf] at hnd
      have he : e.caseId = c.caseId := by
        have : e ∈ w.filter (fun x => x.caseId == c.caseId) := by
          rw [hf]
          exact List.mem_cons_self e _
        exact beq_iff_eq.mp (List.mem_filter.mp this).2
      have he2 : e2.caseId = c.caseId := by
        have : e2 ∈ w.filter (fun x => x.caseId == c.caseId) := by
          rw [hf]
          exact List.mem_cons_of_mem e (List.mem_cons_self e2 _)
        exact beq_iff_eq.mp (List.mem_filter.mp this).2
      rw [List.map_cons, List.map_cons, List.nodup_cons] at hnd
      exact hnd.1 (by rw [he, ← he2]; exact List.mem_cons_self _ _)

theorem joinedView_map_caseId (report : List CaseRec) (repairs : List EventRec) :
    (joinedView report repairs).map (fun m : Merged => m.caseId) =
      (compactCase report).map (fun c => c.caseId) := by
  unfold joinedView
  rw [List.map_flatten, List.map_map]
  have hw : ((compactEvent repairs).map (fun e => e.caseId)).Nodup :=
    keys_nodup_keepLast (fun e : EventRec => e.caseId) _
  have hcong : (compactCase report).map
      ((fun ms : List Merged => ms.map (fun m => m.caseId)) ∘ leftMergeRow (compactEvent repairs)) =
      (compactCase report).map (fun c => [c.caseId]) :=
    List.map_congr_left (fun c _ => leftMergeRow_map_caseId (compactEvent repairs) c hw)
  rw [hcong, flatten_map_singleton (fun c : CaseRec => c.caseId)]

/-- Membership of a key among the compacted Case keys is membership of a trimmed
key in the intake log. -/
theorem mem_compactCase_keys (report : List CaseRec) (k : String) :
    k ∈ (compactCase report).map (fun c => c.caseId) ↔
      ∃ r ∈ report, norm r.caseId = k := by
  constructor
  · intro hk
    rcases List.mem_map.mp hk with ⟨c, hc, rfl⟩
    have hc1 := (keepLast_sublist (fun r : CaseRec => r.caseId) _).subset hc
    have hc2 := (List.mem_insertionSort _).mp hc1
    rcases List.mem_map.mp hc2 with ⟨r0, hr0, rfl⟩
    exact ⟨r0, hr0, rfl⟩
  · rintro ⟨r0, hr0, rfl⟩
    have hmem : ∃ a ∈ List.insertionSort (tsLeBy (fun r : CaseRec => r.ts))
        (report.map (fun r => { r with caseId := norm r.caseId })),
        (fun r : CaseRec => r.caseId) a = norm r0.caseId :=
      ⟨{ r0 with caseId := norm r0.caseId },
        (List.mem_insertionSort _).mpr (List.mem_map.mpr ⟨r0, hr0, rfl⟩), rfl⟩
    rcases (mem_keys_keepLast (fun r : CaseRec => r.caseId) (norm r0.caseId) _).mpr hmem
      with ⟨a, ha, hak⟩
    exact List.mem_map.mpr ⟨a, ha, hak⟩

/-- C2.  The merged view has exactly one record per distinct trimmed `case_id` of
the Case log — independently of how many status events exist for it — and none for
keys that appear only in the repair log; a case with no matching repair row gets
empty-string status, note and update-time fields (the `fillna("")` of
`repair.py:315`), not a missing or null value. -/
theorem mergeView_one_record_per_case (report : List CaseRec) (repairs : List EventRec) :
    (∀ k : String,
      ((mergeView report repairs).map (fun m => m.caseId)).count k =
        if (report.any (fun r => norm r.caseId == k)) = true then 1 else 0) ∧
    (∀ m ∈ mergeView report repairs,
      (∀ e ∈ repairs, norm e.caseId ≠ m.caseId) →
        m.status = "" ∧ m.note = "" ∧ m.updTime = "") := by
  constructor
  · intro k
    have hperm : ((mergeView report repairs).map (fun m => m.caseId)).Perm
        ((joinedView report repairs).map (fun m => m.caseId)) :=
      (List.perm_insertionSort dateDesc _).map _
    rw [hperm.count_eq, joinedView_map_caseId]
    by_cases hmem : k ∈ (compactCase report).map (fun c => c.caseId)
    · have hany : (report.any (fun r => norm r.caseId == k)) = true := by
        rcases (mem_compactCase_keys report k).mp hmem with ⟨r0, hr0, hk⟩
        exact List.any_eq_true.mpr ⟨r0, hr0, beq_iff_eq.mpr hk⟩
      rw [hany, if_pos rfl]
      exact List.count_eq_one_of_mem
        (keys_nodup_keepLast (fun r : CaseRec => r.caseId) _) hmem
    · have hany : ¬ (report.any (fun r => norm r.caseId == k)) = true := by
        intro hc
        rcases List.any_eq_true.mp hc with ⟨r0, hr0, hk⟩
        exact hmem ((mem_compactCase_keys report k).mpr ⟨r0, hr0, beq_iff_eq.mp hk⟩)
      rw [if_neg hany]
      exact List.count_eq_zero.mpr (fun hc => hmem hc)
  · intro m hm hno
    have hm1 : m ∈ joinedView report repairs :=
      (List.mem_insertionSort dateDesc).mp hm
    rcases List.mem_flatten.mp hm1 with ⟨ms, hms, hmm⟩
    rcases List.mem_map.mp hms with ⟨c, _, rfl⟩
    rcases hf : (compactEvent repairs).filter (fun e => e.caseId == c.caseId)
      with _ | ⟨e, es⟩
    · unfold leftMergeRow at hmm
      rw [hf] at hmm
      rcases List.mem_cons.mp hmm with rfl | habs
      · exact ⟨rfl, rfl, rfl⟩
      · simp at habs
    · exfalso
      have he : e ∈ (compactEvent repairs).filter (fun x => x.caseId == c.caseId) := by
        rw [hf]
        exact List.mem_cons_self e _
      have hew : e ∈ compactEvent repairs := (List.mem_filter.mp he).1
      have hek : e.caseId = c.caseId := beq_iff_eq.mp (List.mem_filter.mp he).2
      have hew1 := (keepLast_sublist (fun x : EventRec => x.caseId) _).subset hew
      have hew2 := (List.mem_insertionSort _).mp hew1
      rcases List.mem_map.mp hew2 with ⟨e0, he0, he0e⟩
      have hmcase : m.caseId = c.caseId := by
        unfold leftMergeRow at hmm
        rw [hf] at hmm
        rcases List.mem_map.mp hmm with ⟨e', _, rfl⟩
        rfl
      apply hno e0 he0
      have : norm e0.caseId = e.caseId := by rw [← he0e]
      rw [this, hek, hmcase]

/-- C2, witness: one case `"A"` with one unrelated repair row (`case_id` `"B"`):
`"A"` appears exactly once, `"B"` not at all, and the `"A"` record has empty
status, note and update time. -/
theorem mergeView_one_record_per_case_witness :
    (((mergeView [⟨"t1", "l", "q", "d", "m", "A"⟩] [⟨"t2", "B", "s", "n"⟩]).map
        (fun m => m.caseId)).count "A" = 1) ∧
    (((mergeView [⟨"t1", "l", "q", "d", "m", "A"⟩] [⟨"t2", "B", "s", "n"⟩]).map
        (fun m => m.caseId)).count "B" = 0) ∧
    ∀ m ∈ mergeView [⟨"t1", "l", "q", "d", "m", "A"⟩] [⟨"t2", "B", "s", "n"⟩],
      m.status = "" ∧ m.note = "" ∧ m.updTime = "" := by
  refine ⟨?_, ?_, ?_⟩
  · rw [(mergeView_one_record_per_case [⟨"t1", "l", "q", "d", "m", "A"⟩]
      [⟨"t2", "B", "s", "n"⟩]).1 "A"]
    decide
  · rw [(mergeView_one_record_per_case [⟨"t1", "l", "q", "d", "m", "A"⟩]
      [⟨"t2", "B", "s", "n"⟩]).1 "B"]
    decide
  · intro m hm
    have hme : m = ⟨"t1", "l", "q", "d", "m", "A", "", "", "", ""⟩ := by
      have hlist : mergeView [⟨"t1", "l", "q", "d", "m", "A"⟩] [⟨"t2", "B", "s", "n"⟩] =
          [⟨"t1", "l", "q", "d", "m", "A", "", "", "", ""⟩] := by decide
      rw [hlist] at hm
      simpa using hm
    have hne : ∀ e ∈ ([⟨"t2", "B", "s", "n"⟩] : List EventRec),
        norm e.caseId ≠ m.caseId := by
      rw [hme]
      decide
    exact (mergeView_one_record_per_case [⟨"t1", "l", "q", "d", "m", "A"⟩]
      [⟨"t2", "B", "s", "n"⟩]).2 m hm hne

/-- C4, counterexample.  The claim requires ties in the report date to be broken
by the Case's original append order.  Cases `A` (appended first, intake time
10:00) and `B` (appended second, intake time 09:00) share report date
`2025-01-01`; compaction reorders the frame by parsed intake timestamp, so the
final date sort emits `B` before `A`, not the append order `A, B`. -/
theorem mergeView_tie_order_not_append_order :
    ((mergeView [⟨"2025-01-01 10:00:00", "", "", "", "", "A"⟩,
        ⟨"2025-01-01 09:00:00", "", "", "", "", "B"⟩] []).map
      (fun m => m.caseId) = ["B", "A"]) ∧
    (["B", "A"] : List String) ≠ ["A", "B"] := by
  decide

/-- C4, amended.  The merged view is sorted by the `報修日期` string descending
(under Python string comparison, where the empty string — an unparsable date — is
the minimum and therefore sorts last); rows with equal date strings keep the order
of the pre-sort joined frame, which is the compaction order (ascending parsed
intake timestamp, unparsable timestamps last) — not the intake log's append
order. -/
theorem mergeView_sorted_by_date_desc (report : List CaseRec) (repairs : List EventRec) :
    List.Sorted dateDesc (mergeView report repairs) ∧
    (∀ d : String, (mergeView report repairs).filter (fun m => m.reportDate == d) =
      (joinedView report repairs).filter (fun m => m.reportDate == d)) := by
  constructor
  · exact List.sorted_insertionSort dateDesc _
  · intro d
    apply filter_insertionSort
    intro x _ a _ hpx hpa
    show charListLe a.reportDate.data x.reportDate.data = true
    rw [beq_iff_eq.mp hpx, beq_iff_eq.mp hpa]
    exact charListLe_refl d.data

/-! ## Supporting lemmas for the Upsert Writer -/

theorem colIndex_lt_length : ∀ {header : List String} {name : String} {c : Nat},
    colIndex header name = some c → c < header.length := by
  intro header
  induction header with
  | nil => intro name c h; simp [colIndex] at h
  | cons h0 rest ih =>
    intro name c h
    rw [colIndex] at h
    by_cases hcond : (norm h0 == name) = true
    · rw [if_pos hcond] at h
      cases h
      simp
    · rw [if_neg hcond] at h
      rcases hrec : colIndex rest name with _ | c'
      · rw [hrec] at h
        simp at h
      · rw [hrec] at h
        simp only [Option.map_some'] at h
        cases h
        have := ih hrec
        simp only [List.length_cons]
        omega

theorem colIndex_get : ∀ {header : List String} {name : String} {c : Nat},
    colIndex header name = some c →
      ∃ h0, header.get? c = some h0 ∧ norm h0 = name := by
  intro header
  induction header with
  | nil => intro name c h; simp [colIndex] at h
  | cons h0 rest ih =>
    intro name c h
    rw [colIndex] at h
    by_cases hcond : (norm h0 == name) = true
    · rw [if_pos hcond] at h
      cases h
      exact ⟨h0, rfl, beq_iff_eq.mp hcond⟩
    · rw [if_neg hcond] at h
      rcases hrec : colIndex rest name with _ | c'
      · rw [hrec] at h
        simp at h
      · rw [hrec] at h
        simp only [Option.map_some'] at h
        cases h
        rcases ih hrec with ⟨g, hg, hgn⟩
        exact ⟨g, by simpa using hg, hgn⟩

theorem colIndex_none_iff : ∀ {header : List String} {name : String},
    colIndex header name = none ↔ ∀ h0 ∈ header, norm h0 ≠ name := by
  intro header
  induction header with
  | nil => intro name; simp [colIndex]
  | cons h0 rest ih =>
    intro name
    rw [colIndex]
    by_cases hcond : (norm h0 == name) = true
    · rw [if_pos hcond]
      constructor
      · intro h
        exact absurd h (by simp)
      · intro h
        exact absurd (beq_iff_eq.mp hcond) (h h0 (List.mem_cons_self h0 rest))
    · rw [if_neg hcond]
      constructor
      · intro h x hx
        rcases List.mem_cons.mp hx with rfl | hx'
        · intro hc
          exact hcond (beq_iff_eq.mpr hc)
        · rcases hrec : colIndex rest name with _ | c'
          · exact (ih.mp hrec) x hx'
          · rw [hrec] at h
            simp at h
      · intro h
        have : colIndex rest name = none :=
          ih.mpr (fun x hx => h x (List.mem_cons_of_mem h0 hx))
        rw [this]
        rfl

theorem colIndex_inj {header : List String} {n1 n2 : String} {c : Nat}
    (h1 : colIndex header n1 = some c) (h2 : colIndex header n2 = some c) :
    n1 = n2 := by
  rcases colIndex_get h1 with ⟨g, hg, hn⟩
  rcases colIndex_get h2 with ⟨g', hg', hn'⟩
  rw [hg] at hg'
  cases hg'
  rw [← hn, hn']

/-! ### Grid cells -/

theorem getCell_append_pad (row : List String) (k c : Nat) :
    getCell (row ++ List.replicate k "") c = getCell row c := by
  unfold getCell
  rw [List.get?_eq_getElem?, List.get?_eq_getElem?, List.getElem?_append]
  by_cases h : c < row.length
  · rw [if_pos h]
  · rw [if_neg h, List.getElem?_replicate]
    have hrow : row[c]? = none := List.getElem?_eq_none (by omega)
    rw [hrow]
    by_cases h2 : c - row.length < k
    · rw [if_pos h2]
      rfl
    · rw [if_neg h2]

theorem getCell_setCell_self (row : List String) (c : Nat) (v : String) :
    getCell (setCell row c v) c = v := by
  unfold getCell setCell
  have hlen : c < (row ++ List.replicate (c + 1 - row.length) "").length := by
    rw [List.length_append, List.length_replicate]
    omega
  rw [List.get?_eq_getElem?, List.getElem?_set_self hlen]
  rfl

theorem getCell_setCell_ne (row : List String) {c c' : Nat} (v : String)
    (h : c' ≠ c) : getCell (setCell row c v) c' = getCell row c' := by
  unfold setCell
  have h1 : getCell ((row ++ List.replicate (c + 1 - row.length) "").set c v) c' =
      getCell (row ++ List.replicate (c + 1 - row.length) "") c' := by
    unfold getCell
    rw [List.get?_eq_getElem?, List.get?_eq_getElem?,
      List.getElem?_set_ne (fun hc => h hc.symm)]
  rw [h1, getCell_append_pad]

/-! ### The row scan -/

theorem mem_of_get?_eq_some {α : Type} : ∀ {l : List α} {i : Nat} {a : α},
    l.get? i = some a → a ∈ l := by
  intro l
  induction l with
  | nil => intro i a h; simp [List.get?] at h
  | cons x t ih =>
    intro i a h
    cases i with
    | zero =>
      simp only [List.get?] at h
      cases h
      exact List.mem_cons_self _ _
    | succ j =>
      simp only [List.get?] at h
      exact List.mem_cons_of_mem x (ih h)

theorem lastMatchIdx_none_iff (cCase : Nat) (cid : String) :
    ∀ rows : List (List String), lastMatchIdx cCase cid rows = none ↔
      ∀ r ∈ rows, rowMatches cCase cid r = false := by
  intro rows
  induction rows with
  | nil => simp [lastMatchIdx]
  | cons r rs ih =>
    rw [lastMatchIdx]
    rcases hrec : lastMatchIdx cCase cid rs with _ | j
    · constructor
      · intro h x hx
        rcases List.mem_cons.mp hx with rfl | hx'
        · by_cases hr : rowMatches cCase cid x = true
          · rw [if_pos hr] at h
            exact absurd h (by simp)
          · exact Bool.eq_false_iff.mpr hr
        · exact (ih.mp hrec) x hx'
      · intro h
        rw [if_neg (by rw [h r (List.mem_cons_self r rs)]; simp)]
    · constructor
      · intro h
        exact absurd h (by simp)
      · intro h
        have hnone : lastMatchIdx cCase cid rs = none :=
          ih.mpr (fun x hx => h x (List.mem_cons_of_mem r hx))
        rw [hnone] at hrec
        exact absurd hrec (by simp)

theorem lastMatchIdx_some (cCase : Nat) (cid : String) :
    ∀ (rows : List (List String)) (i : Nat), lastMatchIdx cCase cid rows = some i →
      ∃ row, rows.get? i = some row ∧ rowMatches cCase cid row = true ∧
        ∀ j rowj, i < j → rows.get? j = some rowj →
          rowMatches cCase cid rowj = false := by
  intro rows
  induction rows with
  | nil => intro i h; simp [lastMatchIdx] at h
  | cons r rs ih =>
    intro i h
    rw [lastMatchIdx] at h
    rcases hrec : lastMatchIdx cCase cid rs with _ | j
    · rw [hrec] at h
      by_cases hr : rowMatches cCase cid r = true
      · rw [if_pos hr] at h
        cases h
        refine ⟨r, rfl, hr, ?_⟩
        intro j rowj hj hget
        cases j with
        | zero => omega
        | succ j' =>
          have hget' : rs.get? j' = some rowj := by simpa using hget
          exact (lastMatchIdx_none_iff cCase cid rs).mp hrec rowj
            (mem_of_get?_eq_some hget')
      · rw [if_neg hr] at h
        exact absurd h (by simp)
    · rw [hrec] at h
      cases h
      rcases ih j hrec with ⟨row, hget, hmatch, hlater⟩
      refine ⟨row, by simpa using hget, hmatch, ?_⟩
      intro jj rowj hjj hgetj
      cases jj with
      | zero => omega
      | succ j' =>
        have hgetj' : rs.get? j' = some rowj := by simpa using hgetj
        exact hlater j' rowj (by omega) hgetj'

theorem save_repair_eq_update (now cid st nt : String) (header : List String)
    (dataRows : List (List String)) {cTs cCase cStat cNote i : Nat}
    (hTs : colIndex header "時間戳記" = some cTs)
    (hCase : colIndex header "案件編號" = some cCase)
    (hStat : colIndex header "處理進度" = some cStat)
    (hNote : colIndex header "維修說明" = some cNote)
    (hm : lastMatchIdx cCase cid dataRows = some i) :
    save_repair now cid st nt (header :: dataRows) =
      .ok (header :: List.modify (updateMatchedRow cTs cStat cNote now st nt) i dataRows) := by
  simp only [save_repair, hTs, hCase, hStat, hNote, hm]

theorem save_repair_eq_append (now cid st nt : String) (header : List String)
    (dataRows : List (List String)) {cTs cCase cStat cNote : Nat}
    (hTs : colIndex header "時間戳記" = some cTs)
    (hCase : colIndex header "案件編號" = some cCase)
    (hStat : colIndex header "處理進度" = some cStat)
    (hNote : colIndex header "維修說明" = some cNote)
    (hm : lastMatchIdx cCase cid dataRows = none) :
    save_repair now cid st nt (header :: dataRows) =
      .ok (header :: (dataRows ++
        [freshRow header.length cTs cCase cStat cNote now cid st nt])) := by
  simp only [save_repair, hTs, hCase, hStat, hNote, hm]

/-- Cells of the freshly appended full-width row. -/
theorem freshRow_cells (headerLen cTs cCase cStat cNote : Nat)
    (now cid st nt : String)
    (hTs : cTs < headerLen) (hCa : cCase < headerLen)
    (hSt : cStat < headerLen) (hNo : cNote < headerLen)
    (h1 : cTs ≠ cCase) (h2 : cTs ≠ cStat) (h3 : cTs ≠ cNote)
    (h4 : cCase ≠ cStat) (h5 : cCase ≠ cNote) (h6 : cStat ≠ cNote) :
    (freshRow headerLen cTs cCase cStat cNote now cid st nt).length = headerLen ∧
    getCell (freshRow headerLen cTs cCase cStat cNote now cid st nt) cTs = now ∧
    getCell (freshRow headerLen cTs cCase cStat cNote now cid st nt) cCase = cid ∧
    getCell (freshRow headerLen cTs cCase cStat cNote now cid st nt) cStat = st ∧
    getCell (freshRow headerLen cTs cCase cStat cNote now cid st nt) cNote = nt ∧
    (∀ c, c ≠ cTs → c ≠ cCase → c ≠ cStat → c ≠ cNote →
      getCell (freshRow headerLen cTs cCase cStat cNote now cid st nt) c = "") := by
  unfold freshRow
  have hlen0 : (List.replicate headerLen "").length = headerLen := List.length_replicate _ _
  have hgetset : ∀ (l : List String) (j : Nat) (v : String), j < l.length →
      getCell (l.set j v) j = v := by
    intro l j v hj
    unfold getCell
    rw [List.get?_eq_getElem?, List.getElem?_set_self hj]
    rfl
  have hgetset_ne : ∀ (l : List String) (j j' : Nat) (v : String), j' ≠ j →
      getCell (l.set j v) j' = getCell l j' := by
    intro l j j' v hne
    unfold getCell
    rw [List.get?_eq_getElem?, List.get?_eq_getElem?,
      List.getElem?_set_ne (fun hc => hne hc.symm)]
  have hlen : (((((List.replicate headerLen "").set cTs now).set cCase cid).set
      cStat st).set cNote nt).length = headerLen := by
    simp [List.length_set, hlen0]
  refine ⟨hlen, ?_, ?_, ?_, ?_, ?_⟩
  · rw [hgetset_ne _ _ _ _ h3, hgetset_ne _ _ _ _ h2, hgetset_ne _ _ _ _ h1]
    exact hgetset _ _ _ (by simp [hlen0, hTs])
  · rw [hgetset_ne _ _ _ _ h5, hgetset_ne _ _ _ _ h4]
    exact hgetset _ _ _ (by simp [hlen0, hCa])
  · rw [hgetset_ne _ _ _ _ h6]
    exact hgetset _ _ _ (by simp [hlen0, hSt])
  · exact hgetset _ _ _ (by simp [hlen0, hNo])
  · intro c hc1 hc2 hc3 hc4
    rw [hgetset_ne _ _ _ _ hc4, hgetset_ne _ _ _ _ hc3, hgetset_ne _ _ _ _ hc2,
      hgetset_ne _ _ _ _ hc1]
    unfold getCell
    rw [List.get?_eq_getElem?, List.getElem?_replicate]
    by_cases hck : c < headerLen
    · rw [if_pos hck]
      rfl
    · rw [if_neg hck]
      rfl

/-- Cells of the in-place updated row. -/
theorem updateMatchedRow_cells (cTs cStat cNote : Nat) (now st nt : String)
    (row : List String)
    (h2 : cTs ≠ cStat) (h3 : cTs ≠ cNote) (h6 : cStat ≠ cNote) :
    getCell (updateMatchedRow cTs cStat cNote now st nt row) cTs = now ∧
    getCell (updateMatchedRow cTs cStat cNote now st nt row) cStat = st ∧
    getCell (updateMatchedRow cTs cStat cNote now st nt row) cNote = nt ∧
    (∀ c, c ≠ cTs → c ≠ cStat → c ≠ cNote →
      getCell (updateMatchedRow cTs cStat cNote now st nt row) c = getCell row c) := by
  unfold updateMatchedRow
  refine ⟨?_, ?_, ?_, ?_⟩
  · rw [getCell_setCell_ne _ _ h3, getCell_setCell_ne _ _ h2, getCell_setCell_self]
  · rw [getCell_setCell_ne _ _ h6, getCell_setCell_self]
  · rw [getCell_setCell_self]
  · intro c hc1 hc2 hc3
    rw [getCell_setCell_ne _ _ hc3, getCell_setCell_ne _ _ hc2,
      getCell_setCell_ne _ _ hc1]

/-! ## Claims about the Upsert Writer (C3, C5, C10) -/

/-- C3.  With the four required columns present, `save_repair` scans every data
row and selects the *last* row whose trimmed `案件編號` cell equals the key
(later rows all fail the match); if one exists it rewrites only that row —
same row count, all other rows untouched, the timestamp/status/note cells
overwritten, the `案件編號` cell and every other cell of the row unchanged —
and if none exists it appends exactly one row of full header width whose
non-required cells are all blank, carrying the fresh timestamp `now`. -/
theorem save_repair_locate_update_or_append
    (now cid st nt : String) (header : List String) (dataRows : List (List String))
    (cTs cCase cStat cNote : Nat)
    (hTs : colIndex header "時間戳記" = some cTs)
    (hCase : colIndex header "案件編號" = some cCase)
    (hStat : colIndex header "處理進度" = some cStat)
    (hNote : colIndex header "維修說明" = some cNote) :
    (∀ i, lastMatchIdx cCase cid dataRows = some i →
      ∃ row, dataRows.get? i = some row ∧ rowMatches cCase cid row = true ∧
        (∀ j rowj, i < j → dataRows.get? j = some rowj →
          rowMatches cCase cid rowj = false) ∧
        ∃ d', save_repair now cid st nt (header :: dataRows) = .ok (header :: d') ∧
          d'.length = dataRows.length ∧
          (∀ j, j ≠ i → d'.get? j = dataRows.get? j) ∧
          ∃ row', d'.get? i = some row' ∧
            getCell row' cTs = now ∧ getCell row' cStat = st ∧
            getCell row' cNote = nt ∧ getCell row' cCase = getCell row cCase ∧
            (∀ c, c ≠ cTs → c ≠ cStat → c ≠ cNote →
              getCell row' c = getCell row c)) ∧
    (lastMatchIdx cCase cid dataRows = none →
      (∀ r ∈ dataRows, rowMatches cCase cid r = false) ∧
      ∃ nr, save_repair now cid st nt (header :: dataRows) =
          .ok (header :: (dataRows ++ [nr])) ∧
        nr.length = header.length ∧
        getCell nr cTs = now ∧ getCell nr cCase = cid ∧
        getCell nr cStat = st ∧ getCell nr cNote = nt ∧
        ∀ c, c ≠ cTs → c ≠ cCase → c ≠ cStat → c ≠ cNote → getCell nr c = "") := by
  have hd : ∀ {c1 c2 : Nat} {n1 n2 : String}, colIndex header n1 = some c1 →
      colIndex header n2 = some c2 → n1 ≠ n2 → c1 ≠ c2 :=
    fun ha hb hn hc => hn (colIndex_inj ha (hc ▸ hb))
  have h1 : cTs ≠ cCase := hd hTs hCase (by decide)
  have h2 : cTs ≠ cStat := hd hTs hStat (by decide)
  have h3 : cTs ≠ cNote := hd hTs hNote (by decide)
  have h4 : cCase ≠ cStat := hd hCase hStat (by decide)
  have h5 : cCase ≠ cNote := hd hCase hNote (by decide)
  have h6 : cStat ≠ cNote := hd hStat hNote (by decide)
  constructor
  · intro i hm
    rcases lastMatchIdx_some cCase cid dataRows i hm with ⟨row, hget, hmatch, hlater⟩
    refine ⟨row, hget, hmatch, hlater,
      List.modify (updateMatchedRow cTs cStat cNote now st nt) i dataRows,
      save_repair_eq_update now cid st nt header dataRows hTs hCase hStat hNote hm,
      List.length_modify _ _ _, ?_, ?_⟩
    · intro j hj
      rw [List.get?_eq_getElem?, List.get?_eq_getElem?, List.getElem?_modify]
      cases hq : dataRows[j]? with
      | none => rfl
      | some r =>
        have hij : ¬ (i = j) := fun hc => hj hc.symm
        simp [hij]
    · refine ⟨updateMatchedRow cTs cStat cNote now st nt row, ?_, ?_⟩
      · rw [List.get?_eq_getElem?, List.getElem?_modify, ← List.get?_eq_getElem?, hget]
        simp
      · rcases updateMatchedRow_cells cTs cStat cNote now st nt row h2 h3 h6
          with ⟨ha, hb, hc, hrest⟩
        exact ⟨ha, hb, hc,
          hrest cCase (fun hcc => h1 hcc.symm) (fun hcc => h4 hcc)
            (fun hcc => h5 hcc), hrest⟩
  · intro hm
    refine ⟨(lastMatchIdx_none_iff cCase cid dataRows).mp hm,
      freshRow header.length cTs cCase cStat cNote now cid st nt,
      save_repair_eq_append now cid st nt header dataRows hTs hCase hStat hNote hm, ?_⟩
    exact freshRow_cells header.length cTs cCase cStat cNote now cid st nt
      (colIndex_lt_length hTs) (colIndex_lt_length hCase) (colIndex_lt_length hStat)
      (colIndex_lt_length hNote) h1 h2 h3 h4 h5 h6

/-- C3, witness: the claim's round trip.  After `Upsert("C1","done","fixed")` put
one row into an empty status log, `Upsert("C1","closed","")` locates that same
row (index 0, the last match) and rewrites it in place: the row count stays 1,
the status cell becomes `closed`, and the `案件編號` cell is untouched. -/
theorem save_repair_locate_update_or_append_witness :
    colIndex ["時間戳記", "案件編號", "處理進度", "維修說明"] "案件編號" = some 1 ∧
    save_repair "T1" "C1" "done" "fixed" [["時間戳記", "案件編號", "處理進度", "維修說明"]] =
      .ok [["時間戳記", "案件編號", "處理進度", "維修說明"], ["T1", "C1", "done", "fixed"]] ∧
    (∃ row, ([["T1", "C1", "done", "fixed"]] : List (List String)).get? 0 = some row ∧
      rowMatches 1 "C1" row = true ∧
      (∀ j rowj, 0 < j →
        ([["T1", "C1", "done", "fixed"]] : List (List String)).get? j = some rowj →
        rowMatches 1 "C1" rowj = false) ∧
      ∃ d', save_repair "T2" "C1" "closed" ""
          (["時間戳記", "案件編號", "處理進度", "維修說明"] :: [["T1", "C1", "done", "fixed"]]) =
          .ok (["時間戳記", "案件編號", "處理進度", "維修說明"] :: d') ∧
        d'.length = 1 ∧
        (∀ j, j ≠ 0 →
          d'.get? j = ([["T1", "C1", "done", "fixed"]] : List (List String)).get? j) ∧
        ∃ row', d'.get? 0 = some row' ∧
          getCell row' 0 = "T2" ∧ getCell row' 2 = "closed" ∧ getCell row' 3 = "" ∧
          getCell row' 1 = getCell row 1 ∧
          (∀ c, c ≠ 0 → c ≠ 2 → c ≠ 3 → getCell row' c = getCell row c)) :=
  ⟨by decide, by decide,
   (save_repair_locate_update_or_append "T2" "C1" "closed" ""
      ["時間戳記", "案件編號", "處理進度", "維修說明"] [["T1", "C1", "done", "fixed"]]
      0 1 2 3 (by decide) (by decide) (by decide) (by decide)).1 0 (by decide)⟩

/-- C5.  If any of the four required columns is absent from the status-log header
(under trimmed-header-name matching), `save_repair` fails with the schema error —
the model returns before constructing any written state, mirroring the `raise` at
`repair.py:180` which precedes every `update_cell`/`append_row` call — while the
read-side projector silently fills the same missing column with empty strings in
every row. -/
theorem save_repair_missing_column_schema_error
    (now cid st nt : String) (header : List String) (dataRows : List (List String))
    (name : String) (hname : name ∈ ["時間戳記", "案件編號", "處理進度", "維修說明"])
    (hmiss : colIndex header name = none) :
    save_repair now cid st nt (header :: dataRows) = .error .schemaError ∧
    ∀ rows : List (List String),
      (read_sheet_as_df (header :: rows) [name]).rows = rows.map (fun _ => [""]) := by
  constructor
  · simp only [List.mem_cons, List.not_mem_nil, or_false] at hname
    rcases hname with rfl | rfl | rfl | rfl
    · cases h2 : colIndex header "案件編號" <;> cases h3 : colIndex header "處理進度" <;>
        cases h4 : colIndex header "維修說明" <;> simp [save_repair, hmiss, h2, h3, h4]
    · cases h1 : colIndex header "時間戳記" <;> cases h3 : colIndex header "處理進度" <;>
        cases h4 : colIndex header "維修說明" <;> simp [save_repair, hmiss, h1, h3, h4]
    · cases h1 : colIndex header "時間戳記" <;> cases h2 : colIndex header "案件編號" <;>
        cases h4 : colIndex header "維修說明" <;> simp [save_repair, hmiss, h1, h2, h4]
    · cases h1 : colIndex header "時間戳記" <;> cases h2 : colIndex header "案件編號" <;>
        cases h3 : colIndex header "處理進度" <;> simp [save_repair, hmiss, h1, h2, h3]
  · intro rows
    have hlook : lookupIdx header name = none := by
      unfold lookupIdx
      by_cases hn : name = ""
      · rw [if_pos hn]
      · rw [if_neg hn, hmiss]
    show rows.map (fun r => [name].map (fun h =>
        match lookupIdx header h with
        | some i => (r.get? i).getD ""
        | none => "")) = rows.map (fun _ => [""])
    apply List.map_congr_left
    intro r _
    simp [hlook]

/-- C5, witness: a header missing `維修說明` makes the writer fail with the
schema error while the projector defaults the column to empty strings. -/
theorem save_repair_missing_column_schema_error_witness :
    colIndex ["時間戳記", "案件編號", "處理進度"] "維修說明" = none ∧
    save_repair "T" "C" "s" "n" [["時間戳記", "案件編號", "處理進度"], ["T0", "C", "s0", "n0"]] =
      .error .schemaError ∧
    (read_sheet_as_df [["時間戳記", "案件編號", "處理進度"], ["T0", "C", "s0", "n0"]]
      ["維修說明"]).rows = [["T0", "C", "s0", "n0"]].map (fun _ => [""]) :=
  ⟨by decide,
   (save_repair_missing_column_schema_error "T" "C" "s" "n"
      ["時間戳記", "案件編號", "處理進度"] [["T0", "C", "s0", "n0"]] "維修說明"
      (by decide) (by decide)).1,
   (save_repair_missing_column_schema_error "T" "C" "s" "n"
      ["時間戳記", "案件編號", "處理進度"] [["T0", "C", "s0", "n0"]] "維修說明"
      (by decide) (by decide)).2 [["T0", "C", "s0", "n0"]]⟩

/-- C10.  The writer trims each row's `案件編號` cell but not the `case_id`
argument, so an argument carrying leading or trailing whitespace matches no row
(a trimmed cell can never equal an untrimmed string), and the call always appends
a fresh row storing the argument untrimmed — even when a row whose trimmed cell
equals the trimmed argument is present. -/
theorem save_repair_untrimmed_key_always_appends
    (now cid st nt : String) (header : List String) (dataRows : List (List String))
    (cTs cCase cStat cNote : Nat)
    (hTs : colIndex header "時間戳記" = some cTs)
    (hCase : colIndex header "案件編號" = some cCase)
    (hStat : colIndex header "處理進度" = some cStat)
    (hNote : colIndex header "維修說明" = some cNote)
    (hkey : norm cid ≠ cid) :
    (∀ r ∈ dataRows, rowMatches cCase cid r = false) ∧
    lastMatchIdx cCase cid dataRows = none ∧
    save_repair now cid st nt (header :: dataRows) =
      .ok (header :: (dataRows ++
        [freshRow header.length cTs cCase cStat cNote now cid st nt])) ∧
    getCell (freshRow header.length cTs cCase cStat cNote now cid st nt) cCase = cid := by
  have hd : ∀ {c1 c2 : Nat} {n1 n2 : String}, colIndex header n1 = some c1 →
      colIndex header n2 = some c2 → n1 ≠ n2 → c1 ≠ c2 :=
    fun ha hb hn hc => hn (colIndex_inj ha (hc ▸ hb))
  have hnomatch : ∀ r ∈ dataRows, rowMatches cCase cid r = false := by
    intro r _
    unfold rowMatches
    cases hq : r.get? cCase with
    | none => rfl
    | some cell =>
      by_cases hc : (norm cell == cid) = true
      · exfalso
        have hcell : norm cell = cid := beq_iff_eq.mp hc
        apply hkey
        rw [← hcell]
        exact norm_idem cell
      · exact Bool.eq_false_iff.mpr hc
  have hnone := (lastMatchIdx_none_iff cCase cid dataRows).mpr hnomatch
  refine ⟨hnomatch, hnone,
    save_repair_eq_append now cid st nt header dataRows hTs hCase hStat hNote hnone, ?_⟩
  exact (freshRow_cells header.length cTs cCase cStat cNote now cid st nt
    (colIndex_lt_length hTs) (colIndex_lt_length hCase) (colIndex_lt_length hStat)
    (colIndex_lt_length hNote) (hd hTs hCase (by decide)) (hd hTs hStat (by decide))
    (hd hTs hNote (by decide)) (hd hCase hStat (by decide)) (hd hCase hNote (by decide))
    (hd hStat hNote (by decide))).2.2.1

/-- C10, witness: `Upsert(" C1", ...)` on a log whose only row has trimmed key
`"C1"` updates nothing and appends a new row storing `" C1"` verbatim. -/
theorem save_repair_untrimmed_key_always_appends_witness :
    norm " C1" ≠ " C1" ∧
    (∀ r ∈ ([["T1", "C1", "done", "fixed"]] : List (List String)),
      rowMatches 1 " C1" r = false) ∧
    lastMatchIdx 1 " C1" [["T1", "C1", "done", "fixed"]] = none ∧
    save_repair "T2" " C1" "closed" ""
      (["時間戳記", "案件編號", "處理進度", "維修說明"] :: [["T1", "C1", "done", "fixed"]]) =
      .ok (["時間戳記", "案件編號", "處理進度", "維修說明"] ::
        ([["T1", "C1", "done", "fixed"]] ++
          [freshRow 4 0 1 2 3 "T2" " C1" "closed" ""])) ∧
    getCell (freshRow 4 0 1 2 3 "T2" " C1" "closed" "") 1 = " C1" := by
  refine ⟨by decide, ?_⟩
  exact save_repair_untrimmed_key_always_appends "T2" " C1" "closed" ""
    ["時間戳記", "案件編號", "處理進度", "維修說明"] [["T1", "C1", "done", "fixed"]]
    0 1 2 3 (by decide) (by decide) (by decide) (by decide) (by decide)

/-! ## Claims about the Schema Projector (C7) -/

theorem colIndex_first : ∀ {header : List String} {name : String} {c : Nat},
    colIndex header name = some c →
      ∀ j h1, j < c → header.get? j = some h1 → norm h1 ≠ name := by
  intro header
  induction header with
  | nil => intro name c h; simp [colIndex] at h
  | cons h0 rest ih =>
    intro name c h j h1 hj hget
    rw [colIndex] at h
    by_cases hcond : (norm h0 == name) = true
    · rw [if_pos hcond] at h
      cases h
      omega
    · rw [if_neg hcond] at h
      rcases hrec : colIndex rest name with _ | c'
      · rw [hrec] at h
        simp at h
      · rw [hrec] at h
        simp only [Option.map_some'] at h
        cases h
        cases j with
        | zero =>
          simp only [List.get?] at hget
          cases hget
          intro hc
          exact hcond (beq_iff_eq.mpr hc)
        | succ j' =>
          have hget' : rest.get? j' = some h1 := by simpa using hget
          exact ih hrec j' h1 (by omega) hget'

/-- C7.  The projector's header map is first-occurrence-wins over trimmed header
names with the blank name never a key; an expected name absent from the header
yields the empty string in every projected row, never an error; empty raw input
yields an empty frame with exactly the expected columns; and the claim's concrete
example projects `timestamp` from the first matching column and leaves `status`
and `note` empty. -/
theorem read_sheet_as_df_tolerant :
    (∀ headers : List String, read_sheet_as_df [] headers = ⟨headers, []⟩) ∧
    (∀ header : List String, lookupIdx header "" = none) ∧
    (∀ (header : List String) (name : String) (i : Nat), lookupIdx header name = some i →
      ∃ h0, header.get? i = some h0 ∧ norm h0 = name ∧
        ∀ j h1, j < i → header.get? j = some h1 → norm h1 ≠ name) ∧
    (∀ (header : List String) (name : String),
      (∀ h0 ∈ header, norm h0 ≠ name) → lookupIdx header name = none) ∧
    (∀ (header : List String) (rows : List (List String)) (headers : List String)
        (k : Nat) (name : String), headers.get? k = some name →
      lookupIdx header name = none →
      ∀ row ∈ (read_sheet_as_df (header :: rows) headers).rows, row.get? k = some "") ∧
    read_sheet_as_df [["", "timestamp", "timestamp", "case_id"], ["a", "b", "c", "d"]]
        ["timestamp", "case_id", "status", "note"] =
      ⟨["timestamp", "case_id", "status", "note"], [["b", "d", "", ""]]⟩ := by
  refine ⟨fun headers => rfl, ?_, ?_, ?_, ?_, by decide⟩
  · intro header
    unfold lookupIdx
    rw [if_pos rfl]
  · intro header name i h
    unfold lookupIdx at h
    by_cases hn : name = ""
    · rw [if_pos hn] at h
      exact absurd h (by simp)
    · rw [if_neg hn] at h
      rcases colIndex_get h with ⟨h0, hget, hnorm⟩
      exact ⟨h0, hget, hnorm, colIndex_first h⟩
  · intro header name hall
    unfold lookupIdx
    by_cases hn : name = ""
    · rw [if_pos hn]
    · rw [if_neg hn, colIndex_none_iff.mpr hall]
  · intro header rows headers k name hk hlook row hrow
    have hrow' : row ∈ rows.map (fun r =>
        headers.map (fun h =>
          match lookupIdx header h with
          | some i => (r.get? i).getD ""
          | none => "")) := hrow
    rcases List.mem_map.mp hrow' with ⟨r, _, rfl⟩
    rw [List.get?_eq_getElem?, List.getElem?_map, ← List.get?_eq_getElem?, hk]
    simp [hlook]

/-- C7, witness: the duplicated `timestamp` header maps to the first occurrence
(index 1, after the blank header), and a column absent from the header projects to
the empty string in every row. -/
theorem read_sheet_as_df_tolerant_witness :
    lookupIdx ["", "timestamp", "timestamp", "case_id"] "timestamp" = some 1 ∧
    (∃ h0, (["", "timestamp", "timestamp", "case_id"] : List String).get? 1 = some h0 ∧
      norm h0 = "timestamp" ∧
      ∀ j h1, j < 1 →
        (["", "timestamp", "timestamp", "case_id"] : List String).get? j = some h1 →
        norm h1 ≠ "timestamp") ∧
    ∀ row ∈ (read_sheet_as_df [["", "timestamp"], ["a", "b"]] ["status"]).rows,
      row.get? 0 = some "" :=
  ⟨by decide,
   read_sheet_as_df_tolerant.2.2.1 ["", "timestamp", "timestamp", "case_id"]
     "timestamp" 1 (by decide),
   fun row hrow => read_sheet_as_df_tolerant.2.2.2.2.1 ["", "timestamp"] [["a", "b"]]
     ["status"] 0 "status" (by decide) (by decide) row hrow⟩

/-! ## The timestamp normalizer (C9) -/

theorem isDigit_digitChar_mod10 (n : Nat) : (digitChar (n % 10)).isDigit = true := by
  have h : n % 10 < 10 := Nat.mod_lt _ (by omega)
  revert h
  generalize n % 10 = k
  intro h
  interval_cases k <;> decide

theorem isYmd_strftimeYmd (d : PDate) : isYmd (strftimeYmd d) = true := by
  show isYmd (String.mk (pad4 d.y ++ '-' :: pad2 d.mo ++ '-' :: pad2 d.da)) = true
  unfold pad4 pad2
  simp only [List.cons_append, List.nil_append]
  simp [isYmd, isDigit_digitChar_mod10]

theorem readC4_digits : ∀ {l y rest : List Char}, readC4 l = some (y, rest) →
    ∃ c1 c2 c3 c4 : Char, y = [c1, c2, c3, c4] ∧
      c1.isDigit = true ∧ c2.isDigit = true ∧ c3.isDigit = true ∧
      c4.isDigit = true := by
  intro l y rest h
  cases l with
  | nil => exact absurd h (by simp [readC4])
  | cons c1 t1 =>
    cases t1 with
    | nil => exact absurd h (by simp [readC4])
    | cons c2 t2 =>
      cases t2 with
      | nil => exact absurd h (by simp [readC4])
      | cons c3 t3 =>
        cases t3 with
        | nil => exact absurd h (by simp [readC4])
        | cons c4 rest' =>
          simp only [readC4] at h
          by_cases hd : (c1.isDigit && c2.isDigit && c3.isDigit && c4.isDigit) = true
          · rw [if_pos hd] at h
            simp only [Option.some.injEq, Prod.mk.injEq] at h
            simp only [Bool.and_eq_true] at hd
            exact ⟨c1, c2, c3, c4, h.1.symm, hd.1.1.1, hd.1.1.2, hd.1.2, hd.2⟩
          · rw [if_neg hd] at h
            exact absurd h (by simp)

theorem matchYmdAt_year {l y : List Char} {mo da : Nat}
    (h : matchYmdAt l = some (y, mo, da)) :
    ∃ c1 c2 c3 c4 : Char, y = [c1, c2, c3, c4] ∧
      c1.isDigit = true ∧ c2.isDigit = true ∧ c3.isDigit = true ∧ c4.isDigit = true := by
  unfold matchYmdAt at h
  rcases hc4 : readC4 l with _ | ⟨y', rest⟩
  · simp [hc4] at h
  · simp only [hc4] at h
    rcases rest with _ | ⟨s1, rest1⟩
    · simp at h
    · by_cases hsep : (isSep s1) = true
      · simp only [hsep, if_true] at h
        rcases hms : readMonthSep rest1 with _ | ⟨mo', rest2⟩
        · simp [hms] at h
        · simp only [hms] at h
          rcases hdd : readD12 rest2 with _ | ⟨da', rest3⟩
          · simp [hdd] at h
          · simp only [hdd, Option.some.injEq, Prod.mk.injEq] at h
            rcases h with ⟨rfl, _, _⟩
            exact readC4_digits hc4
      · simp [hsep] at h

theorem searchYmd_year : ∀ {l y : List Char} {mo da : Nat},
    searchYmd l = some (y, mo, da) →
      ∃ c1 c2 c3 c4 : Char, y = [c1, c2, c3, c4] ∧
        c1.isDigit = true ∧ c2.isDigit = true ∧ c3.isDigit = true ∧
        c4.isDigit = true := by
  intro l
  induction l with
  | nil => intro y mo da h; simp [searchYmd] at h
  | cons c rest ih =>
    intro y mo da h
    rw [searchYmd] at h
    rcases hm : matchYmdAt (c :: rest) with _ | r
    · rw [hm] at h
      exact ih h
    · rw [hm] at h
      cases h
      exact matchYmdAt_year hm

theorem isYmd_regex_out {y : List Char} {mo da : Nat}
    (hy : ∃ c1 c2 c3 c4 : Char, y = [c1, c2, c3, c4] ∧
      c1.isDigit = true ∧ c2.isDigit = true ∧ c3.isDigit = true ∧
      c4.isDigit = true) :
    isYmd (String.mk (y ++ '-' :: pad2 mo ++ '-' :: pad2 da)) = true := by
  rcases hy with ⟨c1, c2, c3, c4, rfl, hd1, hd2, hd3, hd4⟩
  unfold pad2
  simp only [List.cons_append, List.nil_append]
  simp [isYmd, isDigit_digitChar_mod10, hd1, hd2, hd3, hd4]

/-- The body of `to_ymd` with its `let` unfolded. -/
theorem to_ymd_eq (ts : String) :
    to_ymd ts =
      if norm ts = "" then ""
      else
        match pd_to_datetime (norm ts) with
        | some d => strftimeYmd d
        | none =>
          match searchYmd (norm ts).data with
          | some (y, mo, da) => String.mk (y ++ '-' :: pad2 mo ++ '-' :: pad2 da)
          | none => "" := rfl

/-- C9.  `to_ymd` always returns either the empty string or a `YYYY-MM-DD`-shaped
string (so it never raises): the generic-parse branch wins when parsing succeeds
and renders zero-padded; otherwise the first regex match is rendered with the
year group verbatim and month/day zero-padded; otherwise the result is empty.
The claim's locale-formatted cell normalizes through the regex fallback. -/
theorem to_ymd_normalizes :
    (∀ s : String, to_ymd s = "" ∨ isYmd (to_ymd s) = true) ∧
    (∀ (s : String) (d : PDate), pd_to_datetime (norm s) = some d →
      to_ymd s = strftimeYmd d) ∧
    (∀ (s : String) (y : List Char) (mo da : Nat), pd_to_datetime (norm s) = none →
      searchYmd (norm s).data = some (y, mo, da) →
      to_ymd s = String.mk (y ++ '-' :: pad2 mo ++ '-' :: pad2 da)) ∧
    (∀ s : String, pd_to_datetime (norm s) = none → searchYmd (norm s).data = none →
      to_ymd s = "") ∧
    to_ymd "2025/3/7 上午 10:00" = "2025-03-07" := by
  refine ⟨?_, ?_, ?_, ?_, by decide⟩
  · intro s
    rw [to_ymd_eq]
    by_cases hs : norm s = ""
    · rw [if_pos hs]
      exact Or.inl rfl
    · rw [if_neg hs]
      rcases hpd : pd_to_datetime (norm s) with _ | d
      · simp only [hpd]
        rcases hse : searchYmd (norm s).data with _ | ⟨y, mo, da⟩
        · simp only [hse]
          exact Or.inl trivial
        · simp only [hse]
          exact Or.inr (isYmd_regex_out (searchYmd_year hse))
      · simp only [hpd]
        exact Or.inr (isYmd_strftimeYmd d)
  · intro s d h
    rw [to_ymd_eq]
    by_cases hs : norm s = ""
    · rw [hs] at h
      have hnone : pd_to_datetime "" = none := rfl
      rw [hnone] at h
      exact absurd h (by simp)
    · rw [if_neg hs]
      simp only [h]
  · intro s y mo da hpd hse
    rw [to_ymd_eq]
    by_cases hs : norm s = ""
    · rw [hs] at hse
      have hnone : searchYmd ("" : String).data = none := rfl
      rw [hnone] at hse
      exact absurd hse (by simp)
    · rw [if_neg hs]
      simp only [hpd, hse]
  · intro s hpd hse
    rw [to_ymd_eq]
    by_cases hs : norm s = ""
    · rw [if_pos hs]
    · rw [if_neg hs]
      simp only [hpd, hse]

/-- C9, witness: a parsable cell goes through the generic branch; the regex
branch renders the year verbatim with zero-padded month and day. -/
theorem to_ymd_normalizes_witness :
    pd_to_datetime (norm "2025-01-02 10:00:00") = some ⟨2025, 1, 2, 10, 0, 0⟩ ∧
    to_ymd "2025-01-02 10:00:00" = strftimeYmd ⟨2025, 1, 2, 10, 0, 0⟩ ∧
    to_ymd "2025-01-02 10:00:00" = "2025-01-02" :=
  ⟨by decide,
   to_ymd_normalizes.2.1 "2025-01-02 10:00:00" ⟨2025, 1, 2, 10, 0, 0⟩ (by decide),
   by decide⟩

end Repair
